import Mathlib

/-!
Verification of `generate_placeholders.py`, a placeholder terrain-texture
generator.  The two core functions, `generate_noise_texture` and
`make_seamless`, are shallowly embedded below.  Pixels are integer RGB
triples.  The floating-point arithmetic of the source is embedded over an
arbitrary linear ordered field `α` with a floor structure (for Python's
`int(...)` truncation toward zero); the pseudo-random stream produced by
`random.random()` is a function `ℕ → α` indexed by draw count, and
`math.sin` is an abstract function `sinF : α → α`.  Instantiating `α := ℝ`,
`sinF := Real.sin` recovers the exact real-number semantics; instantiating
`α := ℚ` keeps every definition executable for concrete evaluation.
-/

/-- RGB pixel: three integer channels. -/
abbrev Pixel : Type := ℤ × ℤ × ℤ

/-- Python `int(...)` applied to a field value: truncation toward zero. -/
def trunc {α : Type*} [LinearOrderedField α] [FloorRing α] (a : α) : ℤ :=
  if 0 ≤ a then ⌊a⌋ else ⌈a⌉

/-- All three channels of a pixel lie in `[0, 255]`. -/
def inRangeP (p : Pixel) : Prop :=
  0 ≤ p.1 ∧ p.1 ≤ 255 ∧ 0 ≤ p.2.1 ∧ p.2.1 ≤ 255 ∧ 0 ≤ p.2.2 ∧ p.2.2 ≤ 255

instance (p : Pixel) : Decidable (inRangeP p) := by
  unfold inRangeP; infer_instance

section NoiseSynthesizer

variable {α : Type*} [LinearOrderedField α] [FloorRing α]

/-- Body of the per-pixel loop of `generate_noise_texture`.  Given the
current draw counter `c` into the random stream, computes the pixel at
`(x, y)` and returns it together with the advanced counter: three octave
draws (the computed `freq` is dead, exactly as in the source), then the two
wave draws `r1`, `r2`, truncation of `noise * noise_strength`, and clamping
of each channel of `base` into `[0, 255]`. -/
def pixelAt (sinF : α → α) (rng : ℕ → α) (base : Pixel) (strength : ℤ)
    (c x y : ℕ) : Pixel × ℕ :=
  let acc := ([0, 1, 2] : List ℕ).foldl (fun p (octave : ℕ) =>
    let freq := (2 : α) ^ octave
    let amplitude := (1 : α) / ((octave : α) + 1)
    (p.1 + (rng p.2 - 5/10) * amplitude, p.2 + 1)) ((0 : α), c)
  let r1 := rng acc.2
  let r2 := rng (acc.2 + 1)
  let wave1 := sinF ((x : α) * (5/100) + r1 * (1/10)) * (3/10)
  let wave2 := sinF ((y : α) * (7/100) + r2 * (1/10)) * (3/10)
  let noise := acc.1 + (wave1 + wave2) * (5/10)
  let variation := trunc (noise * (strength : α))
  ((max 0 (min 255 (base.1 + variation)),
    max 0 (min 255 (base.2.1 + variation)),
    max 0 (min 255 (base.2.2 + variation))), acc.2 + 2)

/-- Inner `for x in range(size)` loop of `generate_noise_texture`,
threading the draw counter through the pixels of one row. -/
def genRow (sinF : α → α) (rng : ℕ → α) (base : Pixel) (strength : ℤ)
    (y : ℕ) : List ℕ → ℕ → List Pixel × ℕ
  | [], c => ([], c)
  | x :: xs, c =>
    let pc := pixelAt sinF rng base strength c x y
    let rest := genRow sinF rng base strength y xs pc.2
    (pc.1 :: rest.1, rest.2)

/-- Outer `for y in range(size)` loop of `generate_noise_texture`,
producing the rows of the raw (pre-blur) image in row-major order. -/
def genRows (sinF : α → α) (rng : ℕ → α) (base : Pixel) (size : ℕ)
    (strength : ℤ) : List ℕ → ℕ → List (List Pixel) × ℕ
  | [], c => ([], c)
  | y :: ys, c =>
    let rc := genRow sinF rng base strength y (List.range size) c
    let rest := genRows sinF rng base size strength ys rc.2
    (rc.1 :: rest.1, rest.2)

/-- The raw image built by the pixel loops of `generate_noise_texture`,
before the final Gaussian blur: all draws start at counter `0`. -/
def rawNoise (sinF : α → α) (rng : ℕ → α) (base : Pixel) (size : ℕ)
    (strength : ℤ) : List (List Pixel) :=
  (genRows sinF rng base size strength (List.range size) 0).1

/-- `generate_noise_texture`: if a seed is provided, the random stream is
reinitialized from it (`random.seed(seed)`), otherwise the ambient stream
of the process-global generator is consumed; the pixel loops run and the
result is passed to the Gaussian blur, modelled as an abstract
deterministic image transformation `blurF` (external PIL operation). -/
def generate_noise_texture (sinF : α → α)
    (blurF : List (List Pixel) → List (List Pixel))
    (seedStream : ℤ → ℕ → α) (base : Pixel) (size : ℕ) (strength : ℤ)
    (seed : Option ℤ) (ambient : ℕ → α) : List (List Pixel) :=
  let rng := match seed with
    | some s => seedStream s
    | none => ambient
  blurF (rawNoise sinF rng base size strength)

/-- Reference per-pixel value for a pixel whose five fresh draws are the
ones at stream positions `c, c+1, c+2, c+3, c+4`, in the order octave 0,
octave 1, octave 2, `r1`, `r2`: the noise is the octave sum at amplitudes
`1, 1/2, 1/3` plus `(wave1+wave2)*0.5`; `variation` truncates
`noise * noiseStrength` toward zero, and each channel is
`clamp(base + variation, 0, 255)`. -/
def spec_pixelC (sinF : α → α) (rng : ℕ → α) (base : Pixel)
    (strength : ℤ) (c x y : ℕ) : Pixel :=
  let noise := (rng c - 5/10) * 1 + (rng (c+1) - 5/10) * (1/2)
    + (rng (c+2) - 5/10) * (1/3)
  let wave1 := sinF ((x : α) * (5/100) + rng (c+3) * (1/10)) * (3/10)
  let wave2 := sinF ((y : α) * (7/100) + rng (c+4) * (1/10)) * (3/10)
  let total := noise + (wave1 + wave2) * (5/10)
  let variation := trunc (total * (strength : α))
  (max 0 (min 255 (base.1 + variation)),
   max 0 (min 255 (base.2.1 + variation)),
   max 0 (min 255 (base.2.2 + variation)))

/-- Reference per-pixel definition, following the spec's words: over a
row-major scan with five draws per pixel, the pixel `(x, y)` consumes the
draws at positions `5*(y*size+x), ..., 5*(y*size+x)+4`. -/
def spec_rawPixel (sinF : α → α) (rng : ℕ → α) (base : Pixel) (size : ℕ)
    (strength : ℤ) (x y : ℕ) : Pixel :=
  spec_pixelC sinF rng base strength (5 * (y * size + x)) x y

end NoiseSynthesizer

/-- Validity of the synthesis parameters, following the spec's words: the
spec declares `size <= 0`, `noiseStrength < 0` and a base-color channel
outside `[0, 255]` invalid (and says they should fail with a
`ConfigurationError` before any pixel work).  The source performs no such
check; this definition exists to compare the spec's contract with the
code's actual behavior. -/
def spec_validParams (base : Pixel) (size : ℕ) (strength : ℤ) : Prop :=
  0 < size ∧ 0 ≤ strength ∧ inRangeP base

instance (base : Pixel) (size : ℕ) (strength : ℤ) :
    Decidable (spec_validParams base size strength) := by
  unfold spec_validParams; infer_instance

/-- Pixel of a row-major list-of-rows image at `(x, y)`. -/
def pixAt (img : List (List Pixel)) (x y : ℕ) : Pixel :=
  (img.getD y []).getD x (0, 0, 0)

/-! ## Seam blender (`make_seamless`)

`make_seamless` works on a PIL image buffer of square side `size`; we model
a buffer as a total pixel map together with its side length.  The function
copies its input (`result = img.copy()`), runs a horizontal pass writing
into the copy while reading the untouched input buffer, then a vertical
pass reading and writing the copy in place.  The two buffers are carried as
an explicit pair so that the writes of each pass are visible as updates of
the second component only. -/

/-- A square image buffer: side length and a total pixel map. -/
structure Img where
  size : ℕ
  pix : ℕ → ℕ → Pixel

/-- `pixels[x, y] = p`: pointwise update of a buffer. -/
def writePix (i : Img) (x y : ℕ) (p : Pixel) : Img :=
  ⟨i.size, fun a b => if a = x ∧ b = y then p else i.pix a b⟩

/-- `blend_width = size // 4`. -/
def blend_width (s : ℕ) : ℕ := s / 4

/-- The per-channel cross-fade of `make_seamless`:
`int(c1 * t + c2 * (1 - t))` on each channel. -/
def blend (p q : Pixel) (t : ℚ) : Pixel :=
  (trunc ((p.1 : ℚ) * t + (q.1 : ℚ) * (1 - t)),
   trunc ((p.2.1 : ℚ) * t + (q.2.1 : ℚ) * (1 - t)),
   trunc ((p.2.2 : ℚ) * t + (q.2.2 : ℚ) * (1 - t)))

/-- Value written by the horizontal pass at `(x, y)`: cross-fade of the
source pixel at `(x, y)` (weight `t = x / blend_width`) with the source
pixel at the opposite column `size - blend_width + x`. -/
def hPixel (src : Img) (x y : ℕ) : Pixel :=
  blend (src.pix x y) (src.pix (src.size - blend_width src.size + x) y)
    ((x : ℚ) / (blend_width src.size : ℚ))

/-- One write of the horizontal pass: reads the untouched source buffer
`src`, writes the result buffer. -/
def hStep (src res : Img) (p : ℕ × ℕ) : Img :=
  writePix res p.1 p.2 (hPixel src p.1 p.2)

/-- One write of the vertical pass: reads and writes the same buffer
(`pixels`), cross-fading `(x, y)` (weight `t = y / blend_width`) with the
current value at the opposite row `size - blend_width + y`. -/
def vStep (res : Img) (p : ℕ × ℕ) : Img :=
  writePix res p.1 p.2
    (blend (res.pix p.1 p.2)
      (res.pix p.1 (res.size - blend_width res.size + p.2))
      ((p.2 : ℚ) / (blend_width res.size : ℚ)))

/-- Iteration order of the horizontal pass:
`for y in range(size): for x in range(blend_width)`, as `(x, y)` pairs. -/
def hCoords (s bw : ℕ) : List (ℕ × ℕ) :=
  (List.range s).flatMap fun y => (List.range bw).map fun x => (x, y)

/-- Iteration order of the vertical pass:
`for x in range(size): for y in range(blend_width)`, as `(x, y)` pairs. -/
def vCoords (s bw : ℕ) : List (ℕ × ℕ) :=
  (List.range s).flatMap fun x => (List.range bw).map fun y => (x, y)

/-- The two passes of `make_seamless` over the pair
(input buffer `img`, result buffer): the horizontal pass writes the result
buffer from the input buffer, the vertical pass updates the result buffer
in place.  The result buffer starts as `img.copy()`. -/
def ms_run (img : Img) : Img × Img :=
  (vCoords img.size (blend_width img.size)).foldl
    (fun q p => (q.1, vStep q.2 p))
    ((hCoords img.size (blend_width img.size)).foldl
      (fun q p => (q.1, hStep q.1 q.2 p)) (img, img))

/-- `make_seamless`: returns the result buffer after both passes. -/
def make_seamless (img : Img) : Img := (ms_run img).2

/-- The image after the horizontal pass of `make_seamless`, starting from
the copy of `img`. -/
def hPass (img : Img) : Img :=
  (hCoords img.size (blend_width img.size)).foldl
    (fun c p => hStep img c p) img

/-- The fade value of the vertical pass at `(x, y)` read from a frozen
buffer `h` (rather than the in-place current buffer). -/
def vFade (h : Img) (x y : ℕ) : Pixel :=
  blend (h.pix x y) (h.pix x (h.size - blend_width h.size + y))
    ((y : ℚ) / (blend_width h.size : ℚ))

/-! ## Concrete fixtures for evaluating the definitions -/

/-- Executable instantiation of `math.sin` over `ℚ` (any function works for
evaluating the structural claims). -/
def sinQ : ℚ → ℚ := fun q => q

/-- Executable sample stream: the `n`-th draw is `n / 10`. -/
def rngQ : ℕ → ℚ := fun n => (n : ℚ) / 10

/-- Executable sample stream: every draw is `1/2`. -/
def halfRng : ℕ → ℚ := fun _ => 1 / 2

/-- Executable seeded-stream table: every seed yields the constant `1/2`
stream. -/
def seedStreamQ : ℤ → ℕ → ℚ := fun _ _ => 1 / 2

/-- Identity stand-in for the external Gaussian blur. -/
def blurId : List (List Pixel) → List (List Pixel) := fun l => l

/-- 8×8 image whose column 6 is black and all other columns white. -/
def cimgSeam : Img :=
  ⟨8, fun x _ => if x = 6 then (0, 0, 0) else (255, 255, 255)⟩

/-- 4×4 image with distinct red channels per coordinate. -/
def cimg4 : Img := ⟨4, fun x y => ((x : ℤ) + 4 * (y : ℤ), 7, 200)⟩

/-- 8×8 image with distinct red channels per coordinate. -/
def cimg8 : Img := ⟨8, fun x y => ((x : ℤ) * 10 + (y : ℤ), 7, 200)⟩

/-- 3×3 constant image (side below the blending threshold). -/
def cimg3 : Img := ⟨3, fun _ _ => (1, 2, 3)⟩

/-- 8×8 constant in-range image. -/
def cimg7 : Img := ⟨8, fun _ _ => (7, 7, 7)⟩

/-! ## Lemmas about truncation and clamping -/

theorem trunc_of_nonneg {α : Type*} [LinearOrderedField α] [FloorRing α]
    {a : α} (h : 0 ≤ a) : trunc a = ⌊a⌋ := if_pos h

theorem trunc_intCast {α : Type*} [LinearOrderedField α] [FloorRing α]
    (n : ℤ) : trunc ((n : α)) = n := by
  unfold trunc
  split
  · exact Int.floor_intCast n
  · exact Int.ceil_intCast n

theorem trunc_bounds {α : Type*} [LinearOrderedField α] [FloorRing α]
    {a : α} (h0 : 0 ≤ a) (h255 : a ≤ 255) :
    0 ≤ trunc a ∧ trunc a ≤ 255 := by
  rw [trunc_of_nonneg h0]
  constructor
  · exact Int.le_floor.mpr (by exact_mod_cast h0)
  · have h1 : ((⌊a⌋ : ℤ) : α) ≤ a := Int.floor_le a
    have h2 : ((⌊a⌋ : ℤ) : α) ≤ ((255 : ℤ) : α) := by
      refine h1.trans (h255.trans_eq ?_)
      norm_num
    exact_mod_cast h2

/-! ## Lemmas about the noise synthesis loops -/

section NoiseLemmas

variable {α : Type*} [LinearOrderedField α] [FloorRing α]
variable (sinF : α → α) (rng : ℕ → α) (base : Pixel) (strength : ℤ)

theorem pixelAt_counter (c x y : ℕ) :
    (pixelAt sinF rng base strength c x y).2 = c + 5 := by
  simp only [pixelAt, List.foldl_cons, List.foldl_nil]

theorem pixelAt_fst (c x y : ℕ) :
    (pixelAt sinF rng base strength c x y).1
      = spec_pixelC sinF rng base strength c x y := by
  simp only [pixelAt, spec_pixelC, List.foldl_cons, List.foldl_nil]
  have e2 : c + 1 + 1 = c + 2 := by omega
  have e3 : c + 1 + 1 + 1 = c + 3 := by omega
  have e4 : c + 1 + 1 + 1 + 1 = c + 4 := by omega
  rw [e4, e3, e2]
  simp only [Prod.mk.injEq]
  exact ⟨congrArg (fun v => max 0 (min 255 (base.1 + trunc v)))
      (by push_cast; ring),
    congrArg (fun v => max 0 (min 255 (base.2.1 + trunc v)))
      (by push_cast; ring),
    congrArg (fun v => max 0 (min 255 (base.2.2 + trunc v)))
      (by push_cast; ring)⟩

theorem genRow_length (y : ℕ) (xs : List ℕ) (c : ℕ) :
    (genRow sinF rng base strength y xs c).1.length = xs.length := by
  induction xs generalizing c with
  | nil => rfl
  | cons x xs ih => simp [genRow, ih]

theorem genRow_counter (y : ℕ) (xs : List ℕ) (c : ℕ) :
    (genRow sinF rng base strength y xs c).2 = c + 5 * xs.length := by
  induction xs generalizing c with
  | nil => simp [genRow]
  | cons x xs ih =>
    simp only [genRow, ih, pixelAt_counter, List.length_cons]
    omega

theorem genRow_getD (y : ℕ) (xs : List ℕ) (c i : ℕ) (h : i < xs.length) :
    (genRow sinF rng base strength y xs c).1.getD i (0, 0, 0)
      = (pixelAt sinF rng base strength (c + 5 * i) (xs.getD i 0) y).1 := by
  induction xs generalizing c i with
  | nil => simp at h
  | cons x xs ih =>
    cases i with
    | zero => simp [genRow]
    | succ i =>
      have h' : i < xs.length := by simpa using h
      simp only [genRow, List.getD_cons_succ]
      rw [pixelAt_counter, ih _ _ h']
      have e : c + 5 + 5 * i = c + 5 * (i + 1) := by omega
      rw [e]

theorem genRows_length (size : ℕ) (ys : List ℕ) (c : ℕ) :
    (genRows sinF rng base size strength ys c).1.length = ys.length := by
  induction ys generalizing c with
  | nil => rfl
  | cons y ys ih => simp [genRows, ih]

theorem genRows_getD (size : ℕ) (ys : List ℕ) (c j : ℕ)
    (h : j < ys.length) :
    (genRows sinF rng base size strength ys c).1.getD j []
      = (genRow sinF rng base strength (ys.getD j 0) (List.range size)
          (c + 5 * size * j)).1 := by
  induction ys generalizing c j with
  | nil => simp at h
  | cons y ys ih =>
    cases j with
    | zero => simp [genRows]
    | succ j =>
      have h' : j < ys.length := by simpa using h
      simp only [genRows, List.getD_cons_succ]
      rw [genRow_counter, ih _ _ h']
      have e : c + 5 * (List.range size).length + 5 * size * j
          = c + 5 * size * (j + 1) := by
        simp only [List.length_range]
        ring
      rw [e]

theorem range_getD (n i : ℕ) (h : i < n) : (List.range n).getD i 0 = i := by
  rw [List.getD_eq_getElem?_getD, List.getElem?_range h]
  rfl

/-- The pixel `(x, y)` of the raw pre-blur image is the per-pixel value
computed at draw counter `5*size*y + 5*x`. -/
theorem rawNoise_pixAt (size : ℕ) (x y : ℕ) (hx : x < size)
    (hy : y < size) :
    pixAt (rawNoise sinF rng base size strength) x y
      = (pixelAt sinF rng base strength (5 * size * y + 5 * x) x y).1 := by
  unfold pixAt rawNoise
  have hy' : y < (List.range size).length := by simpa using hy
  rw [genRows_getD sinF rng base strength size (List.range size) 0 y hy']
  rw [range_getD size y hy]
  have hx' : x < (List.range size).length := by simpa using hx
  rw [genRow_getD sinF rng base strength y (List.range size)
    (0 + 5 * size * y) x hx']
  rw [range_getD size x hx]
  have e : 0 + 5 * size * y + 5 * x = 5 * size * y + 5 * x := by omega
  rw [e]

theorem spec_pixelC_inRange (c x y : ℕ) :
    inRangeP (spec_pixelC sinF rng base strength c x y) := by
  simp only [spec_pixelC, inRangeP]
  omega

theorem genRow_mem (y : ℕ) (xs : List ℕ) (c : ℕ) :
    ∀ p ∈ (genRow sinF rng base strength y xs c).1, inRangeP p := by
  induction xs generalizing c with
  | nil =>
    intro p hp
    simp [genRow] at hp
  | cons x xs ih =>
    intro p hp
    simp only [genRow, List.mem_cons] at hp
    rcases hp with h | h
    · rw [h, pixelAt_fst]
      exact spec_pixelC_inRange sinF rng base strength c x y
    · exact ih _ p h

theorem genRows_mem (size : ℕ) (ys : List ℕ) (c : ℕ) :
    ∀ row ∈ (genRows sinF rng base size strength ys c).1,
      row.length = size ∧ ∀ p ∈ row, inRangeP p := by
  induction ys generalizing c with
  | nil =>
    intro row hrow
    simp [genRows] at hrow
  | cons y ys ih =>
    intro row hrow
    simp only [genRows, List.mem_cons] at hrow
    rcases hrow with h | h
    · subst h
      refine ⟨?_, genRow_mem sinF rng base strength y (List.range size) c⟩
      rw [genRow_length]
      exact List.length_range size
    · exact ih _ row h

end NoiseLemmas

/-! ## Lemmas about the seam blender -/

theorem writePix_size (i : Img) (x y : ℕ) (p : Pixel) :
    (writePix i x y p).size = i.size := rfl

theorem writePix_pix (i : Img) (x y a b : ℕ) (p : Pixel) :
    (writePix i x y p).pix a b = if a = x ∧ b = y then p else i.pix a b := rfl

theorem foldl_pair_h (src : Img) (b : Img) (L : List (ℕ × ℕ)) :
    L.foldl (fun q p => (q.1, hStep q.1 q.2 p)) (src, b)
      = (src, L.foldl (fun c p => hStep src c p) b) := by
  induction L generalizing b with
  | nil => rfl
  | cons p ps ih =>
    simp only [List.foldl_cons]
    exact ih _

theorem foldl_pair_v (a b : Img) (L : List (ℕ × ℕ)) :
    L.foldl (fun q p => (q.1, vStep q.2 p)) (a, b) = (a, L.foldl vStep b) := by
  induction L generalizing b with
  | nil => rfl
  | cons p ps ih =>
    simp only [List.foldl_cons]
    exact ih _

theorem ms_run_eq (img : Img) :
    ms_run img = (img, (vCoords img.size (blend_width img.size)).foldl vStep
      (hPass img)) := by
  unfold ms_run hPass
  rw [foldl_pair_h, foldl_pair_v]

theorem make_seamless_eq (img : Img) :
    make_seamless img
      = (vCoords img.size (blend_width img.size)).foldl vStep (hPass img) := by
  unfold make_seamless
  rw [ms_run_eq]

theorem foldl_write_pix (f : ℕ → ℕ → Pixel) (L : List (ℕ × ℕ)) :
    ∀ (init : Img) (a b : ℕ),
    (L.foldl (fun c p => writePix c p.1 p.2 (f p.1 p.2)) init).pix a b
      = if (a, b) ∈ L then f a b else init.pix a b := by
  induction L with
  | nil =>
    intro init a b
    simp
  | cons q qs ih =>
    intro init a b
    obtain ⟨qx, qy⟩ := q
    simp only [List.foldl_cons, List.mem_cons]
    rw [ih]
    by_cases h1 : (a, b) ∈ qs
    · simp [h1]
    · by_cases h2 : a = qx ∧ b = qy
      · obtain ⟨hx, hy⟩ := h2
        subst hx
        subst hy
        simp [writePix_pix, h1]
      · have hne : ¬((a, b) = (qx, qy)) := by
          simp only [Prod.mk.injEq]
          exact h2
        simp [writePix_pix, h1, h2, hne]

theorem hPass_pix (img : Img) (a b : ℕ) :
    (hPass img).pix a b
      = if (a, b) ∈ hCoords img.size (blend_width img.size)
        then hPixel img a b else img.pix a b := by
  unfold hPass hStep
  exact foldl_write_pix (hPixel img) _ img a b

theorem foldl_hStep_size (src : Img) (L : List (ℕ × ℕ)) :
    ∀ c : Img, (L.foldl (fun c p => hStep src c p) c).size = c.size := by
  induction L with
  | nil => intro c; rfl
  | cons p ps ih =>
    intro c
    simp only [List.foldl_cons]
    exact ih _

theorem foldl_vStep_size (L : List (ℕ × ℕ)) :
    ∀ c : Img, (L.foldl vStep c).size = c.size := by
  induction L with
  | nil => intro c; rfl
  | cons p ps ih =>
    intro c
    simp only [List.foldl_cons]
    exact ih _

theorem hPass_size (img : Img) : (hPass img).size = img.size :=
  foldl_hStep_size img _ img

theorem mem_hCoords {s bw a b : ℕ} :
    (a, b) ∈ hCoords s bw ↔ a < bw ∧ b < s := by
  simp only [hCoords, List.mem_flatMap, List.mem_map, List.mem_range,
    Prod.mk.injEq]
  constructor
  · rintro ⟨y, hy, x, hx, hxa, hyb⟩
    subst hxa
    subst hyb
    exact ⟨hx, hy⟩
  · rintro ⟨ha, hb⟩
    exact ⟨b, hb, a, ha, rfl, rfl⟩

theorem mem_vCoords {s bw a b : ℕ} :
    (a, b) ∈ vCoords s bw ↔ a < s ∧ b < bw := by
  simp only [vCoords, List.mem_flatMap, List.mem_map, List.mem_range,
    Prod.mk.injEq]
  constructor
  · rintro ⟨x, hx, y, hy, hxa, hyb⟩
    subst hxa
    subst hyb
    exact ⟨hx, hy⟩
  · rintro ⟨ha, hb⟩
    exact ⟨a, ha, b, hb, rfl, rfl⟩

theorem nodup_pairBlocks (bw : ℕ) (xs : List ℕ) (h : xs.Nodup) :
    (xs.flatMap fun x => (List.range bw).map fun y => (x, y)).Nodup := by
  induction xs with
  | nil => simp
  | cons x xs ih =>
    rw [List.flatMap_cons]
    have hx : x ∉ xs := (List.nodup_cons.mp h).1
    have hxs : xs.Nodup := (List.nodup_cons.mp h).2
    refine List.Nodup.append ?_ (ih hxs) ?_
    · refine List.Nodup.map ?_ (List.nodup_range bw)
      intro y1 y2 hy
      simpa using congrArg Prod.snd hy
    · intro p hp1 hp2
      rcases List.mem_map.mp hp1 with ⟨y, _, hy⟩
      rcases List.mem_flatMap.mp hp2 with ⟨x2, hx2, hmem⟩
      rcases List.mem_map.mp hmem with ⟨y2, _, hy2⟩
      apply hx
      have e1 : p.1 = x := by rw [← hy]
      have e2 : p.1 = x2 := by rw [← hy2]
      rw [e1] at e2
      rw [e2]
      exact hx2

theorem nodup_vCoords (s bw : ℕ) : (vCoords s bw).Nodup :=
  nodup_pairBlocks bw (List.range s) (List.nodup_range s)

theorem blend_width_le (s : ℕ) : blend_width s ≤ s - blend_width s := by
  unfold blend_width
  omega

/-- Characterization of the in-place vertical pass: as long as the
coordinate list is duplicate-free, only targets rows below `blend_width`,
and the current buffer still agrees with the frozen horizontal-pass buffer
`h` on all untouched positions, every write stores the fade value computed
from `h`. -/
theorem foldl_vStep_pix (h : Img) (L : List (ℕ × ℕ)) :
    ∀ c : Img, L.Nodup →
    (∀ p ∈ L, p.2 < blend_width h.size) →
    c.size = h.size →
    (∀ p ∈ L, c.pix p.1 p.2 = h.pix p.1 p.2) →
    (∀ a b, h.size - blend_width h.size ≤ b → c.pix a b = h.pix a b) →
    ∀ a b, (L.foldl vStep c).pix a b
      = if (a, b) ∈ L then vFade h a b else c.pix a b := by
  induction L with
  | nil =>
    intro c _ _ _ _ _ a b
    simp
  | cons q qs ih =>
    intro c hnd hlt hsz hagree hhigh a b
    obtain ⟨qx, qy⟩ := q
    have hqy : qy < blend_width h.size := hlt (qx, qy) (List.mem_cons_self _ _)
    have hbw : blend_width h.size ≤ h.size - blend_width h.size :=
      blend_width_le h.size
    have hval : vStep c (qx, qy) = writePix c qx qy (vFade h qx qy) := by
      simp only [vStep, vFade]
      rw [hsz]
      rw [hagree (qx, qy) (List.mem_cons_self _ _)]
      rw [hhigh qx (h.size - blend_width h.size + qy) (Nat.le_add_right _ _)]
    have hqnotin : (qx, qy) ∉ qs := (List.nodup_cons.mp hnd).1
    have hnd' : qs.Nodup := (List.nodup_cons.mp hnd).2
    have hlt' : ∀ p ∈ qs, p.2 < blend_width h.size :=
      fun p hp => hlt p (List.mem_cons_of_mem _ hp)
    have hsz' : (writePix c qx qy (vFade h qx qy)).size = h.size := by
      rw [writePix_size]
      exact hsz
    have hagree' : ∀ p ∈ qs,
        (writePix c qx qy (vFade h qx qy)).pix p.1 p.2 = h.pix p.1 p.2 := by
      intro p hp
      rw [writePix_pix]
      have hne : ¬(p.1 = qx ∧ p.2 = qy) := by
        rintro ⟨h1, h2⟩
        apply hqnotin
        have hpq : p = (qx, qy) := by
          rw [← h1, ← h2]
        rw [← hpq]
        exact hp
      rw [if_neg hne]
      exact hagree p (List.mem_cons_of_mem _ hp)
    have hhigh' : ∀ a b, h.size - blend_width h.size ≤ b →
        (writePix c qx qy (vFade h qx qy)).pix a b = h.pix a b := by
      intro a b hb
      rw [writePix_pix]
      have hne : ¬(a = qx ∧ b = qy) := by
        rintro ⟨_, rfl⟩
        omega
      rw [if_neg hne]
      exact hhigh a b hb
    rw [List.foldl_cons, hval,
      ih (writePix c qx qy (vFade h qx qy)) hnd' hlt' hsz' hagree' hhigh' a b]
    by_cases hm : (a, b) ∈ qs
    · simp [hm]
    · by_cases he : (a, b) = (qx, qy)
      · have h1 : a = qx := congrArg Prod.fst he
        have h2 : b = qy := congrArg Prod.snd he
        subst h1
        subst h2
        simp [hm, writePix_pix]
      · have hne : ¬(a = qx ∧ b = qy) := by
          rintro ⟨h1, h2⟩
          exact he (by rw [h1, h2])
        simp [hm, he, hne, writePix_pix]

/-- Full pixel characterization of `make_seamless` in terms of the frozen
horizontal-pass image. -/
theorem make_seamless_pix (img : Img) (a b : ℕ) (ha : a < img.size) :
    (make_seamless img).pix a b
      = if b < blend_width img.size then vFade (hPass img) a b
        else (hPass img).pix a b := by
  rw [make_seamless_eq]
  have hsz := hPass_size img
  have hchar := foldl_vStep_pix (hPass img)
    (vCoords img.size (blend_width img.size)) (hPass img)
    (nodup_vCoords _ _)
    (by
      intro p hp
      rw [hsz]
      obtain ⟨px, py⟩ := p
      exact (mem_vCoords.mp hp).2)
    rfl
    (fun p _ => rfl)
    (fun a b _ => rfl)
    a b
  rw [hchar]
  by_cases hbv : b < blend_width img.size
  · rw [if_pos (mem_vCoords.mpr ⟨ha, hbv⟩), if_pos hbv]
  · rw [if_neg (fun hmem => hbv (mem_vCoords.mp hmem).2), if_neg hbv]

/-- Pixel characterization of the horizontal pass. -/
theorem hPass_pix_if (img : Img) (x y : ℕ) (hy : y < img.size) :
    (hPass img).pix x y
      = if x < blend_width img.size then hPixel img x y else img.pix x y := by
  rw [hPass_pix]
  by_cases hx : x < blend_width img.size
  · rw [if_pos (mem_hCoords.mpr ⟨hx, hy⟩), if_pos hx]
  · rw [if_neg (fun hmem => hx (mem_hCoords.mp hmem).1), if_neg hx]

theorem convex_bounds {u v : ℤ} {t : ℚ} (hu0 : 0 ≤ u) (hu255 : u ≤ 255)
    (hv0 : 0 ≤ v) (hv255 : v ≤ 255) (ht0 : 0 ≤ t) (ht1 : t ≤ 1) :
    0 ≤ (u : ℚ) * t + (v : ℚ) * (1 - t)
      ∧ (u : ℚ) * t + (v : ℚ) * (1 - t) ≤ 255 := by
  have hu0' : (0 : ℚ) ≤ (u : ℚ) := by exact_mod_cast hu0
  have hu255' : (u : ℚ) ≤ 255 := by exact_mod_cast hu255
  have hv0' : (0 : ℚ) ≤ (v : ℚ) := by exact_mod_cast hv0
  have hv255' : (v : ℚ) ≤ 255 := by exact_mod_cast hv255
  constructor
  · nlinarith
  · nlinarith

theorem blend_inRange {p q : Pixel} {t : ℚ} (hp : inRangeP p)
    (hq : inRangeP q) (ht0 : 0 ≤ t) (ht1 : t ≤ 1) :
    inRangeP (blend p q t) := by
  obtain ⟨hp1, hp2, hp3, hp4, hp5, hp6⟩ := hp
  obtain ⟨hq1, hq2, hq3, hq4, hq5, hq6⟩ := hq
  refine ⟨?_, ?_, ?_, ?_, ?_, ?_⟩
  · exact (trunc_bounds (convex_bounds hp1 hp2 hq1 hq2 ht0 ht1).1
      (convex_bounds hp1 hp2 hq1 hq2 ht0 ht1).2).1
  · exact (trunc_bounds (convex_bounds hp1 hp2 hq1 hq2 ht0 ht1).1
      (convex_bounds hp1 hp2 hq1 hq2 ht0 ht1).2).2
  · exact (trunc_bounds (convex_bounds hp3 hp4 hq3 hq4 ht0 ht1).1
      (convex_bounds hp3 hp4 hq3 hq4 ht0 ht1).2).1
  · exact (trunc_bounds (convex_bounds hp3 hp4 hq3 hq4 ht0 ht1).1
      (convex_bounds hp3 hp4 hq3 hq4 ht0 ht1).2).2
  · exact (trunc_bounds (convex_bounds hp5 hp6 hq5 hq6 ht0 ht1).1
      (convex_bounds hp5 hp6 hq5 hq6 ht0 ht1).2).1
  · exact (trunc_bounds (convex_bounds hp5 hp6 hq5 hq6 ht0 ht1).1
      (convex_bounds hp5 hp6 hq5 hq6 ht0 ht1).2).2

theorem tdiv_bounds {x bw : ℕ} (h : x < bw) :
    0 ≤ (x : ℚ) / (bw : ℚ) ∧ (x : ℚ) / (bw : ℚ) ≤ 1 := by
  have hbw : (0 : ℚ) < (bw : ℚ) := by
    have : 0 < bw := by omega
    exact_mod_cast this
  constructor
  · positivity
  · rw [div_le_one hbw]
    exact_mod_cast h.le

theorem foldl_hStep_inRange (src : Img)
    (hsrc : ∀ a b, inRangeP (src.pix a b)) (L : List (ℕ × ℕ)) :
    ∀ c : Img, (∀ p ∈ L, p.1 < blend_width src.size) →
    (∀ a b, inRangeP (c.pix a b)) →
    ∀ a b, inRangeP ((L.foldl (fun c p => hStep src c p) c).pix a b) := by
  induction L with
  | nil =>
    intro c _ hc a b
    simpa using hc a b
  | cons q qs ih =>
    intro c hL hc a b
    rw [List.foldl_cons]
    refine ih (hStep src c q) (fun p hp => hL p (List.mem_cons_of_mem _ hp))
      ?_ a b
    intro a' b'
    simp only [hStep, writePix_pix]
    split
    · have hq1 : q.1 < blend_width src.size :=
        hL q (List.mem_cons_self _ _)
      exact blend_inRange (hsrc _ _) (hsrc _ _)
        (tdiv_bounds hq1).1 (tdiv_bounds hq1).2
    · exact hc a' b'

theorem foldl_vStep_inRange (s : ℕ) (L : List (ℕ × ℕ)) :
    ∀ c : Img, (∀ p ∈ L, p.2 < blend_width s) → c.size = s →
    (∀ a b, inRangeP (c.pix a b)) →
    ∀ a b, inRangeP ((L.foldl vStep c).pix a b) := by
  induction L with
  | nil =>
    intro c _ _ hc a b
    simpa using hc a b
  | cons q qs ih =>
    intro c hL hcs hc a b
    rw [List.foldl_cons]
    refine ih (vStep c q) (fun p hp => hL p (List.mem_cons_of_mem _ hp))
      hcs ?_ a b
    intro a' b'
    simp only [vStep, writePix_pix]
    split
    · have hq2 : q.2 < blend_width c.size := by
        rw [hcs]
        exact hL q (List.mem_cons_self _ _)
      exact blend_inRange (hc _ _) (hc _ _)
        (tdiv_bounds hq2).1 (tdiv_bounds hq2).2
    · exact hc a' b'

/-- `make_seamless` preserves the channel bound. -/
theorem make_seamless_inRange (img : Img)
    (himg : ∀ a b, inRangeP (img.pix a b)) :
    ∀ a b, inRangeP ((make_seamless img).pix a b) := by
  intro a b
  rw [make_seamless_eq]
  refine foldl_vStep_inRange img.size _ (hPass img) ?_ (hPass_size img) ?_ a b
  · intro p hp
    obtain ⟨px, py⟩ := p
    exact (mem_vCoords.mp hp).2
  · intro a' b'
    unfold hPass
    refine foldl_hStep_inRange img himg _ img ?_ himg a' b'
    intro p hp
    obtain ⟨px, py⟩ := p
    exact (mem_hCoords.mp hp).1

theorem blend_zero (p q : Pixel) : blend p q 0 = q := by
  unfold blend
  have e : ∀ z w : ℤ, (z : ℚ) * 0 + (w : ℚ) * (1 - 0) = (w : ℚ) := by
    intro z w
    ring
  rw [e p.1 q.1, e p.2.1 q.2.1, e p.2.2 q.2.2,
    trunc_intCast, trunc_intCast, trunc_intCast]

theorem hCoords_zero (s : ℕ) : hCoords s 0 = [] := by
  unfold hCoords
  simp

theorem vCoords_zero (s : ℕ) : vCoords s 0 = [] := by
  unfold vCoords
  simp

/-! ## Claim theorems -/

/-- C1: every pixel `(x, y)` of the raw image produced by
`generate_noise_texture` before the blur equals the spec's reference
definition: octave sum at amplitudes `1/(o+1)` (the per-octave `freq = 2^o`
is computed but unused), plus `(wave1+wave2)*0.5`, variation truncated
toward zero and each channel clamped into `[0, 255]`, with the five draws
per pixel consumed in this order over a row-major scan. -/
theorem claim_C1 {α : Type*} [LinearOrderedField α] [FloorRing α]
    (sinF : α → α) (rng : ℕ → α) (base : Pixel) (strength : ℤ)
    (size x y : ℕ) (hx : x < size) (hy : y < size) :
    pixAt (rawNoise sinF rng base size strength) x y
      = spec_rawPixel sinF rng base size strength x y := by
  rw [rawNoise_pixAt sinF rng base strength size x y hx hy, pixelAt_fst]
  unfold spec_rawPixel
  have e : 5 * size * y + 5 * x = 5 * (y * size + x) := by ring
  rw [e]

/-- C1 witness: the identity instantiated over `ℚ` at a concrete stream,
base color `(10, 20, 30)`, `size = 2`, `noiseStrength = 3`, pixel
`(1, 1)`. -/
theorem claim_C1_witness :
    1 < 2 ∧ 1 < 2
    ∧ pixAt (rawNoise sinQ rngQ ((10 : ℤ), 20, 30) 2 3) 1 1
      = spec_rawPixel sinQ rngQ ((10 : ℤ), 20, 30) 2 3 1 1 :=
  ⟨by decide, by decide,
    claim_C1 sinQ rngQ ((10 : ℤ), 20, 30) 3 2 1 1 (by decide) (by decide)⟩

/-- C2: the horizontal pass sets, for `x < blend_width`, every channel to
`int(original(x,y)*t + original(size-blend_width+x,y)*(1-t))` with
`t = x / blend_width`, and leaves every column `x ≥ blend_width`
unchanged. -/
theorem claim_C2 (img : Img) (x y : ℕ) (hx : x < img.size)
    (hy : y < img.size) :
    (hPass img).pix x y
      = if x < blend_width img.size then
          (trunc (((img.pix x y).1 : ℚ)
              * ((x : ℚ) / (blend_width img.size : ℚ))
            + ((img.pix (img.size - blend_width img.size + x) y).1 : ℚ)
              * (1 - (x : ℚ) / (blend_width img.size : ℚ))),
           trunc (((img.pix x y).2.1 : ℚ)
              * ((x : ℚ) / (blend_width img.size : ℚ))
            + ((img.pix (img.size - blend_width img.size + x) y).2.1 : ℚ)
              * (1 - (x : ℚ) / (blend_width img.size : ℚ))),
           trunc (((img.pix x y).2.2 : ℚ)
              * ((x : ℚ) / (blend_width img.size : ℚ))
            + ((img.pix (img.size - blend_width img.size + x) y).2.2 : ℚ)
              * (1 - (x : ℚ) / (blend_width img.size : ℚ))))
        else img.pix x y := by
  rw [hPass_pix_if img x y hy]
  by_cases hb : x < blend_width img.size
  · rw [if_pos hb, if_pos hb]
    rfl
  · rw [if_neg hb, if_neg hb]

/-- C2 witness: instantiated at a concrete 8×8 image and the unchanged
column `x = 3 ≥ blend_width = 2`. -/
theorem claim_C2_witness :
    3 < cimg8.size ∧ 5 < cimg8.size
    ∧ (hPass cimg8).pix 3 5 = cimg8.pix 3 5 :=
  ⟨by decide, by decide, claim_C2 cimg8 3 5 (by decide) (by decide)⟩

/-- C3: the vertical pass starts from the horizontally blended image: for
`y < blend_width` every channel is
`int(h(x,y)*t + h(x, size-blend_width+y)*(1-t))` with
`t = y / blend_width` where `h` is the horizontal-pass output, and every
row `y ≥ blend_width` is exactly the horizontal-pass output. -/
theorem claim_C3 (img : Img) (x y : ℕ) (hx : x < img.size)
    (hy : y < img.size) :
    (make_seamless img).pix x y
      = if y < blend_width img.size then
          (trunc ((((hPass img).pix x y).1 : ℚ)
              * ((y : ℚ) / (blend_width img.size : ℚ))
            + (((hPass img).pix x (img.size - blend_width img.size + y)).1 : ℚ)
              * (1 - (y : ℚ) / (blend_width img.size : ℚ))),
           trunc ((((hPass img).pix x y).2.1 : ℚ)
              * ((y : ℚ) / (blend_width img.size : ℚ))
            + (((hPass img).pix x
                (img.size - blend_width img.size + y)).2.1 : ℚ)
              * (1 - (y : ℚ) / (blend_width img.size : ℚ))),
           trunc ((((hPass img).pix x y).2.2 : ℚ)
              * ((y : ℚ) / (blend_width img.size : ℚ))
            + (((hPass img).pix x
                (img.size - blend_width img.size + y)).2.2 : ℚ)
              * (1 - (y : ℚ) / (blend_width img.size : ℚ))))
        else (hPass img).pix x y := by
  rw [make_seamless_pix img x y hx]
  by_cases hb : y < blend_width img.size
  · rw [if_pos hb, if_pos hb]
    unfold vFade blend
    rw [hPass_size]
  · rw [if_neg hb, if_neg hb]

/-- C3 witness: instantiated at a concrete 8×8 image and the untouched row
`y = 5 ≥ blend_width = 2`. -/
theorem claim_C3_witness :
    2 < cimg8.size ∧ 5 < cimg8.size
    ∧ (make_seamless cimg8).pix 2 5 = (hPass cimg8).pix 2 5 :=
  ⟨by decide, by decide, claim_C3 cimg8 2 5 (by decide) (by decide)⟩

/-- C4: every pixel channel of every emitted image lies in `[0, 255]`: the
raw synthesized image is clamped, and `make_seamless` preserves the bound
because each blended channel is the truncation of a convex combination of
two in-range channels. -/
theorem claim_C4 :
    (∀ (α : Type) [LinearOrderedField α] [FloorRing α] (sinF : α → α)
        (rng : ℕ → α) (base : Pixel) (size : ℕ) (strength : ℤ),
      ∀ row ∈ rawNoise sinF rng base size strength, ∀ p ∈ row, inRangeP p)
    ∧ ∀ img : Img, (∀ a b, inRangeP (img.pix a b)) →
        ∀ a b, inRangeP ((make_seamless img).pix a b) := by
  constructor
  · intro α _ _ sinF rng base size strength row hrow p hp
    exact (genRows_mem sinF rng base strength size (List.range size) 0 row
      hrow).2 p hp
  · exact make_seamless_inRange

/-- C4 witness: a concrete raw pixel and a concrete blended pixel are in
range. -/
theorem claim_C4_witness :
    inRangeP (((7 : ℤ), 17, 27) : Pixel)
    ∧ inRangeP ((make_seamless cimg7).pix 2 3) :=
  ⟨claim_C4.1 ℚ sinQ rngQ ((10 : ℤ), 20, 30) 1 5 [((7 : ℤ), 17, 27)]
      (by with_unfolding_all decide) ((7 : ℤ), 17, 27) (by decide),
    claim_C4.2 cimg7 (fun _ _ => show inRangeP (((7 : ℤ), 7, 7) : Pixel)
      by decide) 2 3⟩

/-- C5: with a provided seed, `generate_noise_texture` reinitializes the
pseudo-random stream from the seed before any sampling, so its output does
not depend on the generator's ambient state before the call: two calls
with the same arguments yield identical images. -/
theorem claim_C5 {α : Type*} [LinearOrderedField α] [FloorRing α]
    (sinF : α → α) (blurF : List (List Pixel) → List (List Pixel))
    (seedStream : ℤ → ℕ → α) (base : Pixel) (size : ℕ) (strength : ℤ)
    (s : ℤ) (ambient1 ambient2 : ℕ → α) :
    generate_noise_texture sinF blurF seedStream base size strength (some s)
        ambient1
      = generate_noise_texture sinF blurF seedStream base size strength
        (some s) ambient2 := rfl

/-- C6 counterexample: on the 8×8 image whose column 6 is black and all
other columns white, the pre-blend edge pixels `(0, 4)` and `(7, 4)` are
equal, yet after `make_seamless` the output colors at `(0, 4)` and
`(7, 4)` differ by 255 in the red channel — neither within one
interpolation step nor within the pre-blend edge difference. -/
theorem claim_C6_counterexample :
    cimgSeam.pix 0 4 = cimgSeam.pix 7 4
    ∧ ¬(((make_seamless cimgSeam).pix 0 4).1
          - ((make_seamless cimgSeam).pix 7 4).1 ≤ 1
        ∧ ((make_seamless cimgSeam).pix 7 4).1
          - ((make_seamless cimgSeam).pix 0 4).1 ≤ 1) := by
  with_unfolding_all decide

/-- C6 amended: `make_seamless` does not bound the difference between
opposite output edges; instead, on rows (resp. columns) not touched by the
other pass, the output color at coordinate 0 equals the input color at
coordinate `size - blend_width` exactly, while the color at coordinate
`size - 1` keeps its input value, so the output edge difference equals the
input's difference between positions `size - blend_width` and `size - 1`
and is unbounded in general. -/
theorem claim_C6_amended (img : Img) (h4 : 4 ≤ img.size) :
    (∀ y, blend_width img.size ≤ y → y < img.size →
      (make_seamless img).pix 0 y
          = img.pix (img.size - blend_width img.size) y
        ∧ (make_seamless img).pix (img.size - 1) y
          = img.pix (img.size - 1) y)
    ∧ ∀ x, blend_width img.size ≤ x → x < img.size →
        (make_seamless img).pix x 0
            = img.pix x (img.size - blend_width img.size)
          ∧ (make_seamless img).pix x (img.size - 1)
            = img.pix x (img.size - 1) := by
  have hbw : blend_width img.size = img.size / 4 := rfl
  have hbwle := blend_width_le img.size
  have hsz0 : 0 < img.size := by omega
  have h0bw : 0 < blend_width img.size := by omega
  constructor
  · intro y hge hlt
    have hnotlt : ¬ y < blend_width img.size := by omega
    constructor
    · rw [make_seamless_pix img 0 y hsz0, if_neg hnotlt,
        hPass_pix_if img 0 y hlt, if_pos h0bw]
      unfold hPixel
      rw [Nat.add_zero]
      norm_num [blend_zero]
    · have ha : img.size - 1 < img.size := by omega
      have hnl : ¬ img.size - 1 < blend_width img.size := by omega
      rw [make_seamless_pix img (img.size - 1) y ha, if_neg hnotlt,
        hPass_pix_if img (img.size - 1) y hlt, if_neg hnl]
  · intro x hge hlt
    have hnotx : ¬ x < blend_width img.size := by omega
    constructor
    · rw [make_seamless_pix img x 0 hlt, if_pos h0bw]
      unfold vFade
      rw [hPass_size]
      rw [Nat.add_zero]
      norm_num [blend_zero]
      have hrow : img.size - blend_width img.size < img.size := by omega
      rw [hPass_pix_if img x (img.size - blend_width img.size) hrow,
        if_neg hnotx]
    · have ha : img.size - 1 < img.size := by omega
      have hn1 : ¬ img.size - 1 < blend_width img.size := by omega
      rw [make_seamless_pix img x (img.size - 1) hlt, if_neg hn1,
        hPass_pix_if img x (img.size - 1) ha, if_neg hnotx]

/-- C6 witness: the amended statement instantiated at a concrete 8×8
image, row 5. -/
theorem claim_C6_witness :
    4 ≤ cimg8.size ∧ (make_seamless cimg8).pix 0 5 = cimg8.pix 6 5 :=
  ⟨by decide,
    ((claim_C6_amended cimg8 (by decide)).1 5 (by decide) (by decide)).1⟩

/-- C7 counterexample: at the invalid parameters
`baseColor = (300, 20, 30)` (channel out of range), `size = 1`,
`noiseStrength = -1`, the spec's validity predicate rejects the call, yet
`generate_noise_texture` performs the pixel work and returns a completed
image (with the out-of-range channel clamped) instead of failing with a
`ConfigurationError` — no such error exists in the code. -/
theorem claim_C7_counterexample :
    ¬ spec_validParams ((300 : ℤ), 20, 30) 1 (-1)
    ∧ generate_noise_texture sinQ blurId seedStreamQ ((300 : ℤ), 20, 30) 1
        (-1) (some 0) (fun _ => 0) = [[((255 : ℤ), 20, 30)]] := by
  with_unfolding_all decide

/-- C7 amended: `generate_noise_texture` performs no parameter validation;
for every base color, size and noise strength — valid or not — the pixel
loops complete normally and produce a `size × size` image whose channels
are clamped into `[0, 255]`. -/
theorem claim_C7_amended {α : Type*} [LinearOrderedField α] [FloorRing α]
    (sinF : α → α) (rng : ℕ → α) (base : Pixel) (size : ℕ)
    (strength : ℤ) :
    (rawNoise sinF rng base size strength).length = size
    ∧ ∀ row ∈ rawNoise sinF rng base size strength,
        row.length = size ∧ ∀ p ∈ row, inRangeP p := by
  constructor
  · exact (genRows_length sinF rng base strength size (List.range size)
      0).trans (List.length_range size)
  · exact genRows_mem sinF rng base strength size (List.range size) 0

/-- C7 witness: the amended statement instantiated at the invalid
parameters of the counterexample. -/
theorem claim_C7_witness :
    (rawNoise sinQ halfRng ((300 : ℤ), 20, 30) 1 (-1)).length = 1
    ∧ ([((255 : ℤ), 20, 30)] : List Pixel).length = 1 :=
  ⟨(claim_C7_amended sinQ halfRng ((300 : ℤ), 20, 30) 1 (-1)).1,
    ((claim_C7_amended sinQ halfRng ((300 : ℤ), 20, 30) 1 (-1)).2
      [((255 : ℤ), 20, 30)] (by with_unfolding_all decide)).1⟩

/-- C8: `make_seamless` does not mutate its input: every write of both
passes goes to the result buffer (initialized as the copy of the input),
and the input buffer is unchanged after the run. -/
theorem claim_C8 (img : Img) : (ms_run img).1 = img := by
  rw [ms_run_eq]

/-- C9: for a square image of side below 4, `blend_width = size // 4 = 0`,
both blend loops iterate zero times (so `t = x / blend_width` is never
evaluated), and `make_seamless` returns an unchanged copy of its input. -/
theorem claim_C9 (img : Img) (h : img.size < 4) :
    make_seamless img = img := by
  have hbw : blend_width img.size = 0 := by
    unfold blend_width
    omega
  rw [make_seamless_eq, hbw, vCoords_zero, List.foldl_nil]
  unfold hPass
  rw [hbw, hCoords_zero, List.foldl_nil]

/-- C9 witness: `make_seamless` is the identity on a concrete 3×3
image. -/
theorem claim_C9_witness : cimg3.size < 4 ∧ make_seamless cimg3 = cimg3 :=
  ⟨by decide, claim_C9 cimg3 (by decide)⟩

/-- C10: in the in-place vertical pass, the opposite rows that are read
(rows `≥ size - blend_width`) are disjoint from the rows that are written
(rows `< blend_width`) because `blend_width ≤ size - blend_width`; hence
rows `≥ size - blend_width` of the output equal the horizontal-pass
output, and every fade value is computed from the frozen horizontal-pass
image. -/
theorem claim_C10 :
    (∀ s : ℕ, blend_width s ≤ s - blend_width s)
    ∧ (∀ (img : Img) (a b : ℕ), a < img.size →
        img.size - blend_width img.size ≤ b → b < img.size →
        (make_seamless img).pix a b = (hPass img).pix a b)
    ∧ ∀ (img : Img) (a b : ℕ), a < img.size → b < blend_width img.size →
        (make_seamless img).pix a b = vFade (hPass img) a b := by
  refine ⟨blend_width_le, ?_, ?_⟩
  · intro img a b ha hge hlt
    rw [make_seamless_pix img a b ha]
    have hn : ¬ b < blend_width img.size := by
      have := blend_width_le img.size
      omega
    rw [if_neg hn]
  · intro img a b ha hb
    rw [make_seamless_pix img a b ha, if_pos hb]

/-- C10 witness: instantiated at a concrete 8×8 image, an untouched source
row `(3, 7)` and a faded target pixel `(3, 1)`. -/
theorem claim_C10_witness :
    blend_width 8 ≤ 8 - blend_width 8
    ∧ (make_seamless cimg8).pix 3 7 = (hPass cimg8).pix 3 7
    ∧ (make_seamless cimg8).pix 3 1 = vFade (hPass cimg8) 3 1 :=
  ⟨claim_C10.1 8,
    claim_C10.2.1 cimg8 3 7 (by decide) (by decide) (by decide),
    claim_C10.2.2 cimg8 3 1 (by decide) (by decide)⟩
